import Mathlib

/-!
Verification development for the conversation context engine of the
first-telegram-bot repository.  The Python services under
`src/services/conversation_history.py`, `src/services/conversation_processor.py`
and `src/services/qdrant_conversation_manager.py` are shallowly embedded:
UTC instants are modelled as seconds (`Nat` for stored timestamps, `ℚ` for the
current clock), similarity scores as rationals, and the embedding provider as
an abstract function parameter (the provider is an external collaborator whose
only contract is determinism).  Fallible store calls are modelled by explicit
availability and failure flags.
-/

set_option maxHeartbeats 1000000

/-- Model of `ConversationMessage` (dataclass in
`src/services/conversation_history.py`).  `timestamp` is the UTC instant in
seconds; `context_score` is the transient relevance score (a float in the
source, modelled exactly as a rational). -/
structure ConversationMessage where
  user_id : String
  username : String
  message : String
  response : String
  timestamp : Nat
  intent : Option String := none
  context_score : ℚ := 0
  deriving DecidableEq, Repr

/-- Model of a stored record dictionary handed to
`ConversationMessage.from_dict`.  Each possible response key of the stored
JSON object is an optional field (`none` means the key is absent); the
`timestamp` field is assumed to hold a valid ISO instant and is modelled by
the instant it denotes. -/
structure MessageDict where
  user_id : String
  username : String
  message : String
  timestamp : Nat
  intent : Option String
  context_score : ℚ
  response : Option String
  bot_response : Option String
  bot_respons : Option String
  deriving DecidableEq, Repr

/-- The message built by `from_dict` once the response text has been
resolved. -/
def MessageDict.build (d : MessageDict) (resp : String) : ConversationMessage :=
  ⟨d.user_id, d.username, d.message, resp, d.timestamp, d.intent, d.context_score⟩

/-- Model of `ConversationMessage.from_dict`.  The source pops a legacy
`bot_response` key into `response` (taking priority over an existing
`response` key), else keeps an existing `response` key, else pops the typo key
`bot_respons`, else defaults to the empty string.  A leftover unexpected key
(the typo key surviving next to another response key) would make the
`cls(**data)` call raise `TypeError`; that failure is modelled by `none`. -/
def ConversationMessage.from_dict (d : MessageDict) : Option ConversationMessage :=
  match d.bot_response, d.response, d.bot_respons with
  | some r, _, none => some (d.build r)
  | some _, _, some _ => none
  | none, some _, some _ => none
  | none, some r, none => some (d.build r)
  | none, none, some r => some (d.build r)
  | none, none, none => some (d.build "")

/-! ### Clear-intent detection (`detect_clear_intent`) -/

/-- Word characters for the regex word boundary `\b` (Python `\w`, restricted
to the text actually matched: the lowercased message). -/
def isWordChar (c : Char) : Bool := c.isAlpha || c.isDigit || c == '_'

/-- Match a literal word at the head of `s`; return the remainder on
success. -/
def matchLit : List Char → List Char → Option (List Char)
  | [], s => some s
  | _ :: _, [] => none
  | p :: ps, c :: cs => if p == c then matchLit ps cs else none

/-- Does `w` match at the head of `s`, followed by a word boundary
(pattern fragment `w\b`)? -/
def matchWordEnd (w : List Char) (s : List Char) : Bool :=
  match matchLit w s with
  | none => false
  | some [] => true
  | some (c :: _) => ! isWordChar c

/-- Does some alternative of `alts` match, followed by a word boundary, at
some position of `s`?  The arbitrary start position models the `.*` that
precedes the group in the source patterns. -/
def existsAltEnd (alts : List (List Char)) : List Char → Bool
  | [] => false
  | c :: rest =>
    alts.any (fun w => matchWordEnd w (c :: rest)) || existsAltEnd alts rest

/-- Matcher for the source patterns of shape `\b(alt1).*(alt2)\b`, with
`re.search` semantics (a match anywhere in the text).  The Bool argument says
whether a word may start at the current position (the `\b` before the first
group); it is `true` at position zero. -/
def searchAltDotAlt (alts1 alts2 : List (List Char)) : Bool → List Char → Bool
  | _, [] => false
  | bOk, c :: rest =>
    (bOk && alts1.any (fun w =>
      match matchLit w (c :: rest) with
      | some r => existsAltEnd alts2 r
      | none => false))
    || searchAltDotAlt alts1 alts2 (! isWordChar c) rest

/-- Matcher for the source patterns of shape `\bw1\s+w2\b`, with `re.search`
semantics.  `\s+` is matched greedily, which is equivalent here because `w2`
starts with a letter. -/
def searchWordSpaceWord (w1 w2 : List Char) : Bool → List Char → Bool
  | _, [] => false
  | bOk, c :: rest =>
    (bOk && (match matchLit w1 (c :: rest) with
      | some (d :: r) =>
        d.isWhitespace && matchWordEnd w2 (r.dropWhile Char.isWhitespace)
      | _ => false))
    || searchWordSpaceWord w1 w2 (! isWordChar c) rest

/-- Model of `ConversationHistoryService.detect_clear_intent`.  The message is
lowercased and matched against the seven fixed patterns of the source; each
regex is modelled by the dedicated matcher for its shape. -/
def detect_clear_intent (message : String) : Bool :=
  let m := message.data.map Char.toLower
  searchAltDotAlt ["clear".data, "delete".data, "remove".data]
      ["conversation".data, "history".data, "chat".data] true m
  || searchAltDotAlt ["conversation".data, "history".data, "chat".data]
      ["clear".data, "delete".data, "remove".data] true m
  || searchAltDotAlt ["forget".data] ["conversation".data, "everything".data] true m
  || searchAltDotAlt ["reset".data] ["conversation".data, "chat".data, "history".data] true m
  || searchWordSpaceWord "clear".data "all".data true m
  || searchWordSpaceWord "start".data "fresh".data true m
  || searchWordSpaceWord "new".data "conversation".data true m

/-! ### Lifecycle: `clear_conversation_history` -/

/-- Environment of one call to `clear_conversation_history`: which store
clients are configured, and whether each tier's delete call raises when
attempted. -/
structure ClearEnv where
  redisConfigured : Bool
  qdrantConfigured : Bool
  redisRaises : Bool
  qdrantRaises : Bool
  deriving DecidableEq, Repr

/-- Observable outcome of `clear_conversation_history`: which tiers were
attempted, and whether an exception propagated to the caller. -/
structure ClearOutcome where
  redisAttempted : Bool
  qdrantAttempted : Bool
  raised : Bool
  deriving DecidableEq, Repr

/-- Model of `ConversationHistoryService.clear_conversation_history`.  Both
deletes sit in one `try` block, executed Redis first; the `except` block logs
the failure and then re-raises it (`raise`).  A configured client whose delete
raises therefore aborts the rest of the block and propagates the exception. -/
def clear_conversation_history (env : ClearEnv) : ClearOutcome :=
  if env.redisConfigured && env.redisRaises then
    { redisAttempted := true, qdrantAttempted := false, raised := true }
  else if env.qdrantConfigured && env.qdrantRaises then
    { redisAttempted := env.redisConfigured, qdrantAttempted := true, raised := true }
  else
    { redisAttempted := env.redisConfigured,
      qdrantAttempted := env.qdrantConfigured, raised := false }

/-! ### Context confidence (`_calculate_context_confidence`) -/

/-- Model of `ConversationProcessor._calculate_context_confidence`.  `now` is
the current UTC clock in seconds, so `now - timestamp` is the age used by the
recency factor.  The four factors and their weights follow the source:
message-count adequacy (weight 2/10), recency with linear decay over 24 hours
clamped at 0 (weight 3/10), mean relevance score (weight 4/10, not clamped in
the source), and intent consistency (weight 1/10; 1/2 when no message carries
a non-empty intent).  The weighted sum is capped above at 1. -/
def calculate_context_confidence (now : ℚ) (messages : List ConversationMessage)
    (_currentMessage : String) : ℚ :=
  if messages.isEmpty then 0
  else
    let n : ℚ := messages.length
    let msg_count_score := min (n / 10) 1
    let avg_age := (messages.map (fun m => now - (m.timestamp : ℚ))).sum / n
    let recency_score := max 0 (1 - avg_age / (24 * 3600))
    let avg_relevance := (messages.map (fun m => m.context_score)).sum / n
    let intents := (messages.filterMap (fun m => m.intent)).filter (fun s => s != "")
    let intent_score :=
      if intents.isEmpty then 1 / 2
      else 1 - (intents.dedup.length : ℚ) / (intents.length : ℚ)
    min (msg_count_score * (2 / 10) + recency_score * (3 / 10)
      + avg_relevance * (4 / 10) + intent_score * (1 / 10)) 1

/-! ### Relevance filtering (`_filter_by_relevance`) -/

/-- Configured cap of recent messages kept in Redis
(`max_redis_messages = 50`). -/
def max_redis_messages : Nat := 50

/-- Configured context slot budget (`max_context_messages = 10`). -/
def max_context_messages : Nat := 10

/-- Minimum similarity for context inclusion
(`context_relevance_threshold = 0.3`). -/
def context_relevance_threshold : ℚ := 3 / 10

/-- A candidate with its relevance score recomputed: the source embeds the
candidate text (user message, a space, then the response) and takes the cosine
similarity against the embedding of the current message.  Both steps are
modelled by the abstract deterministic function `sim` applied to the two
texts. -/
def rescored (sim : String → String → ℚ) (current : String)
    (m : ConversationMessage) : ConversationMessage :=
  { m with context_score := sim current (m.message ++ " " ++ m.response) }

/-- Comparator for the descending relevance sort
(`sort(key=..., reverse=True)`; Python's sort and `mergeSort` are both
stable). -/
def byScoreDesc (a b : ConversationMessage) : Bool :=
  decide (b.context_score ≤ a.context_score)

/-- Model of `ConversationHistoryService._filter_by_relevance`.  `emb` is the
optional embedding subsystem; when it is absent (or the candidate list is
empty) the source returns the first `max_messages` candidates unscored. -/
def filter_by_relevance (emb : Option (String → String → ℚ))
    (messages : List ConversationMessage) (current_message : String)
    (max_messages : Nat) : List ConversationMessage :=
  match emb with
  | none => messages.take max_messages
  | some sim =>
    if messages.isEmpty then messages.take max_messages
    else
      let relevant := (messages.map (rescored sim current_message)).filter
        (fun m => decide (context_relevance_threshold ≤ m.context_score))
      (relevant.mergeSort byScoreDesc).take max_messages

/-! ### Context rendering (`_create_optimized_context`) -/

/-- Two-digit zero padding used by `strftime`. -/
def pad2 (n : Nat) : String := if n < 10 then "0" ++ toString n else toString n

/-- Model of the hour-minute `strftime` rendering for a UTC instant in
seconds. -/
def formatHM (t : Nat) : String := pad2 (t / 3600 % 24) ++ ":" ++ pad2 (t % 3600 / 60)

/-- The user line emitted for one exchange. -/
def userLine (m : ConversationMessage) : String :=
  "[" ++ formatHM m.timestamp ++ "] User: " ++ m.message

/-- The response line emitted for one exchange. -/
def botLine (m : ConversationMessage) : String :=
  "[" ++ formatHM m.timestamp ++ "] Bot: " ++ m.response

/-- Length of one exchange's block (user line, newline, response line,
newline) as counted by the rendering loop. -/
def blockLen (m : ConversationMessage) : Nat :=
  (userLine m).length + 1 + (botLine m).length + 1

/-- The header line of the rendered context. -/
def contextHeader : String := "### Relevant Conversation History:"

/-- The exchanges actually emitted by the rendering loop: a prefix of the
(already ordered) list, cut at the first exchange whose block would push the
running character count beyond `max_length` (that exchange and everything
after it are dropped whole). -/
def selectWithinBudget (max_length : Nat) :
    Nat → List ConversationMessage → List ConversationMessage
  | _, [] => []
  | len, m :: rest =>
    if max_length < len + blockLen m then []
    else m :: selectWithinBudget max_length (len + blockLen m) rest

/-- Text assembled from the chosen exchanges: the header, one user line and
one response line (plus a blank line) per exchange, then the current-message
footer; the empty string when no exchange fit. -/
def renderChosen (chosen : List ConversationMessage)
    (current_message : String) : String :=
  if chosen.isEmpty then ""
  else
    String.intercalate "\n"
      ((contextHeader :: (chosen.map (fun m => [userLine m, botLine m, ""])).flatten)
        ++ ["### Current Message:", "User: " ++ current_message, ""])

/-- Model of `ConversationProcessor._create_optimized_context`: the messages
are sorted by relevance score, highest first (`sorted(..., reverse=True)`),
then rendered within the character budget. -/
def create_optimized_context (messages : List ConversationMessage)
    (current_message : String) (max_length : Nat) : String :=
  if messages.isEmpty then ""
  else
    renderChosen
      (selectWithinBudget max_length contextHeader.length
        (messages.mergeSort byScoreDesc))
      current_message

/-- Comparator for ascending timestamp order. -/
def byTimeAsc (a b : ConversationMessage) : Bool :=
  decide (a.timestamp ≤ b.timestamp)

/-- Rendering as claim C4 states it (definition follows the specification's
words, for comparison with the code's renderer): the selected exchanges listed
in ascending timestamp order, with the same budget rule. -/
def render_chronological_claim (messages : List ConversationMessage)
    (current_message : String) (max_length : Nat) : String :=
  if messages.isEmpty then ""
  else
    renderChosen
      (selectWithinBudget max_length contextHeader.length
        (messages.mergeSort byTimeAsc))
      current_message

/-! ### Recency store writes and trimming (`_store_in_redis`) -/

/-- Model of `HSET` on one user's hash, kept as an association list in
insertion order: replace the field if present, else append it. -/
def hset (h : List (String × ConversationMessage)) (field : String)
    (msg : ConversationMessage) : List (String × ConversationMessage) :=
  if h.any (fun kv => kv.1 == field) then
    h.map (fun kv => if kv.1 == field then (field, msg) else kv)
  else h ++ [(field, msg)]

/-- Comparator for the trim sort.  The source sorts by the serialized ISO
timestamp string; ISO strings of the common fixed format compare
lexicographically in chronological order, so the key is modelled by the
instant itself. -/
def byEntryTimeAsc (a b : String × ConversationMessage) : Bool :=
  decide (a.2.timestamp ≤ b.2.timestamp)

/-- Model of `ConversationHistoryService._store_in_redis` restricted to one
user's hash (the TTL refresh touches no field and is not modelled): `HSET`,
then, if the field count exceeds the cap, fetch everything, sort ascending by
timestamp and delete all but the last `max_redis_messages` entries. -/
def store_in_redis (h : List (String × ConversationMessage)) (message_id : String)
    (msg : ConversationMessage) : List (String × ConversationMessage) :=
  let h1 := hset h message_id msg
  if max_redis_messages < h1.length then
    let sortedEntries := h1.mergeSort byEntryTimeAsc
    let toDelete := sortedEntries.take (h1.length - max_redis_messages)
    h1.filter (fun kv => ! toDelete.any (fun d => d.1 == kv.1))
  else h1

/-- Iterated `_store_in_redis` over a batch of adds for one user. -/
def store_batch (h : List (String × ConversationMessage))
    (adds : List (String × ConversationMessage)) :
    List (String × ConversationMessage) :=
  adds.foldl (fun acc e => store_in_redis acc e.1 e.2) h

/-- Sixty concrete adds with distinct ids and strictly increasing
timestamps. -/
def trimWitnessAdds : List (String × ConversationMessage) :=
  (List.range 60).map (fun i => (toString i, ⟨"u", "alice", "m", "r", i, none, 0⟩))

/-! ### Dual-store state and context retrieval -/

/-- Model of `_get_redis_key`: the per-user hash key. -/
def redis_key (user_id : String) : String :=
  "conversation_history:user:" ++ user_id

/-- A point of the `conversation_history` Qdrant collection: the point id and
the stored payload, modelled by the message it round-trips to through
`to_dict`/`from_dict` (the payload's `user_id` field is the message's). -/
structure QdrantPoint where
  id : String
  msg : ConversationMessage
  deriving DecidableEq, Repr

/-- The embedding subsystem as used by retrieval: similarity of the current
message against a candidate's recomputed text (`msgSim`), and the score
Qdrant reports for a stored point against the current message's embedding
(`pointSim`).  Both are abstract deterministic functions. -/
structure EmbeddingModel where
  msgSim : String → String → ℚ
  pointSim : String → QdrantPoint → ℚ

/-- Joint state of the two stores.  `redis` maps a hash key to its
(field, parsed message) entries. -/
structure StoreState where
  redisConfigured : Bool
  qdrantConfigured : Bool
  redis : String → List (String × ConversationMessage)
  qdrant : List QdrantPoint

/-- Comparator for most-recent-first order. -/
def byTimeDesc (a b : ConversationMessage) : Bool :=
  decide (b.timestamp ≤ a.timestamp)

/-- Model of `_get_recent_from_redis`: `HGETALL` on the requesting user's key
only, parse the values, sort most recent first, truncate; empty when the
client is not configured. -/
def get_recent_from_redis (st : StoreState) (user_id : String) (limit : Nat) :
    List ConversationMessage :=
  if st.redisConfigured then
    (((st.redis (redis_key user_id)).map Prod.snd).mergeSort byTimeDesc).take limit
  else []

/-- Qdrant `search` as used by `_get_semantic_context`: the `user_id` filter
is mandatory, results are at or above the score threshold, ranked by score
descending and limited. -/
def qdrant_search (points : List QdrantPoint) (score : QdrantPoint → ℚ)
    (user_id : String) (limit : Nat) (threshold : ℚ) : List QdrantPoint :=
  ((points.filter (fun p => p.msg.user_id == user_id
      && decide (threshold ≤ score p))).mergeSort
    (fun a b => decide (score b ≤ score a))).take limit

/-- The result loop of `_get_semantic_context`: walk the ranked results,
skip any whose timestamp is in the exclusion list, attach the reported score,
and break once `limit` messages are collected. -/
def collectSemantic (score : QdrantPoint → ℚ) (excl : List Nat) (limit : Nat) :
    List ConversationMessage → List QdrantPoint → List ConversationMessage
  | acc, [] => acc.reverse
  | acc, p :: rest =>
    let acc2 := if p.msg.timestamp ∈ excl then acc
      else { p.msg with context_score := score p } :: acc
    if limit ≤ acc2.length then acc2.reverse
    else collectSemantic score excl limit acc2 rest

/-- Model of `_get_semantic_context`: empty when Qdrant or the embedding
model is unavailable; otherwise search with the mandatory user filter for
`limit * 2` candidates and collect up to `limit` non-excluded ones. -/
def get_semantic_context (st : StoreState) (emb : Option EmbeddingModel)
    (user_id current_message : String) (limit : Nat) (excl : List Nat) :
    List ConversationMessage :=
  match emb with
  | none => []
  | some e =>
    if st.qdrantConfigured then
      collectSemantic (e.pointSim current_message) excl limit []
        (qdrant_search st.qdrant (e.pointSim current_message) user_id
          (limit * 2) context_relevance_threshold)
    else []

/-- Model of `get_conversation_context`: fetch up to 20 recent exchanges from
the requesting user's hash, relevance-filter them (or take the most recent
half-budget unfiltered when the embedding model is missing or nothing was
fetched), optionally top up from the similarity index excluding already
selected timestamps, and sort the result chronologically. -/
def get_conversation_context (st : StoreState) (emb : Option EmbeddingModel)
    (user_id current_message : String) (include_semantic : Bool) :
    List ConversationMessage :=
  let recent := get_recent_from_redis st user_id 20
  let fromRecent :=
    if !recent.isEmpty && emb.isSome then
      filter_by_relevance (emb.map (fun e => e.msgSim)) recent current_message
        (max_context_messages / 2)
    else recent.take (max_context_messages / 2)
  let ctx :=
    if include_semantic && fromRecent.length < max_context_messages then
      fromRecent ++ get_semantic_context st emb user_id current_message
        (max_context_messages - fromRecent.length)
        (fromRecent.map (fun m => m.timestamp))
    else fromRecent
  ctx.mergeSort byTimeAsc

/-! ### Adding exchanges: one id for both tiers (`add_conversation`) -/

/-- Model of the ISO rendering of an instant for the id computation: an
injective rendering of the instant (ISO strings denote instants
injectively). -/
def isoformat (t : Nat) : String := toString t

/-- Model of the uuid5 library call, a deterministic digest of a namespace
and a name.  The SHA-1 digest of the library is abstracted by a tagged
rendering of its two arguments; the id invariants only rely on the digest
being a function of them. -/
def uuid5 (ns nm : String) : String := "uuid5:" ++ ns ++ ":" ++ nm

/-- Model of `_get_message_id`: a UUID computed deterministically from the
user id and the timestamp, in the fixed `conversation.bot` namespace. -/
def get_message_id (user_id : String) (timestamp : Nat) : String :=
  uuid5 (uuid5 "NAMESPACE_DNS" "conversation.bot")
    (user_id ++ ":" ++ isoformat timestamp)

/-- Qdrant `upsert`: replace the point holding the id when present, else
append it. -/
def qdrant_upsert (points : List QdrantPoint) (point_id : String)
    (msg : ConversationMessage) : List QdrantPoint :=
  if points.any (fun p => p.id == point_id) then
    points.map (fun p => if p.id == point_id then ⟨point_id, msg⟩ else p)
  else points ++ [⟨point_id, msg⟩]

/-- Model of `add_conversation` over the joint store state: build the message
at the current instant, take the externally supplied id or generate one from
the user id and timestamp, then write it under that same id to the Redis hash
(when configured) and to Qdrant (when configured and the embedding model is
available).  The threaded id is returned alongside the new state. -/
def add_conversation (st : StoreState) (embAvailable : Bool) (now : Nat)
    (user_id username user_message bot_response : String)
    (intent : Option String) (ext_id : Option String) :
    StoreState × String :=
  let message_id := match ext_id with
    | some i => i
    | none => get_message_id user_id now
  let msg : ConversationMessage :=
    ⟨user_id, username, user_message, bot_response, now, intent, 0⟩
  let st1 :=
    if st.redisConfigured then
      { st with redis := fun k =>
          if k == redis_key user_id then
            store_in_redis (st.redis (redis_key user_id)) message_id msg
          else st.redis k }
    else st
  let st2 :=
    if st1.qdrantConfigured && embAvailable then
      { st1 with qdrant := qdrant_upsert st1.qdrant message_id msg }
    else st1
  (st2, message_id)

/-! ### Response patching in the enhanced collection
(`update_conversation_response`) -/

/-- A point of the enhanced `conversation_history_v2` collection, restricted
to the payload fields the response patch reads or writes; the remaining
payload fields are carried through `payload.copy()` unchanged and are not
modelled. -/
structure QdrantPointV2 where
  id : String
  vector : List ℚ
  user_message : String
  response : String
  combined_text : String
  deriving DecidableEq, Repr

/-- State of the enhanced Qdrant manager: the client flag, the optional
embedding model (`encode`, an abstract deterministic function to a vector)
and the stored points. -/
structure QcmState where
  clientConfigured : Bool
  embedding_model : Option (String → List ℚ)
  points : List QdrantPointV2

/-- The combined text of an exchange (a user line and a bot line) used for
embeddings. -/
def combined_of (user_message response : String) : String :=
  "User: " ++ user_message ++ "\nBot: " ++ response

/-- Model of `QdrantConversationManager.update_conversation_response`:
retrieve the point by id (`False` when the client is missing or the id is
unknown, leaving the state untouched); otherwise update the payload's
`response` and `combined_text`, re-encode the vector from the corrected
combined text when the embedding model is available (keeping the old vector
otherwise), upsert under the same id and return `True`. -/
def update_conversation_response (st : QcmState)
    (message_id new_response : String) : QcmState × Bool :=
  if st.clientConfigured then
    match st.points.find? (fun p => p.id == message_id) with
    | none => (st, false)
    | some p =>
      let combined := combined_of p.user_message new_response
      let vector := match st.embedding_model with
        | some enc => enc combined
        | none => p.vector
      let p2 : QdrantPointV2 :=
        ⟨message_id, vector, p.user_message, new_response, combined⟩
      ({ st with points :=
          st.points.map (fun q => if q.id == message_id then p2 else q) }, true)
  else (st, false)

unseal List.merge List.mergeSort

/-! ### Claim theorems and supporting lemmas -/

/-- C10: deserialization handles all three response-key shapes: a legacy
`bot_response` key is mapped to the `response` field, a `bot_respons` typo key
is likewise mapped when no other response key is present, and a record with no
response key at all yields a message whose response is the empty string. -/
theorem c10_from_dict_response_shapes (d : MessageDict) (r : String) :
    (d.bot_response = some r → d.bot_respons = none →
      ConversationMessage.from_dict d = some (d.build r)) ∧
    (d.bot_response = none → d.response = none → d.bot_respons = some r →
      ConversationMessage.from_dict d = some (d.build r)) ∧
    (d.bot_response = none → d.response = none → d.bot_respons = none →
      ConversationMessage.from_dict d = some (d.build "")) := by
  refine ⟨?_, ?_, ?_⟩ <;> intros h1 h2 <;>
    simp_all [ConversationMessage.from_dict]

/-- Witness for C10 at a concrete record carrying only the legacy
`bot_response` key. -/
theorem c10_from_dict_witness :
    ConversationMessage.from_dict
        ⟨"u1", "alice", "hi", 100, none, 0, none, some "hello", none⟩ =
      some (MessageDict.build
        ⟨"u1", "alice", "hi", 100, none, 0, none, some "hello", none⟩ "hello") :=
  (c10_from_dict_response_shapes
    ⟨"u1", "alice", "hi", 100, none, 0, none, some "hello", none⟩ "hello").1 rfl rfl

/-- C7: the clear-intent detector accepts the four example phrases and rejects
the non-clear phrase; matching is case-insensitive (two of the inputs carry
upper-case letters). -/
theorem c7_detect_clear_intent_examples :
    detect_clear_intent "clear all conversation" = true ∧
    detect_clear_intent "forget everything we discussed" = true ∧
    detect_clear_intent "start fresh please" = true ∧
    detect_clear_intent "I want to reset our chat" = true ∧
    detect_clear_intent "This is not a clear message" = false := by
  refine ⟨?_, ?_, ?_, ?_, ?_⟩ <;> decide

/-- C1 counterexample: with both tiers configured and the Redis delete
failing, the Qdrant delete is never attempted and the exception propagates to
the caller — contradicting the claim that a failure in either tier is logged
without raising and without aborting the other tier's deletion. -/
theorem c1_clear_counterexample :
    (clear_conversation_history ⟨true, true, true, false⟩).qdrantAttempted = false ∧
    (clear_conversation_history ⟨true, true, true, false⟩).raised = true := by
  decide

/-- C1 (amended): a call to clear the conversation history attempts the
configured tiers sequentially, Redis first; a failure in the Redis tier aborts
the Qdrant deletion, and a failure in either tier is logged and re-raised to
the caller; only when no attempted tier fails does the call return without
exception. -/
theorem c1_clear_behavior (rc qc rr qr : Bool) :
    (clear_conversation_history ⟨rc, qc, rr, qr⟩).raised = (rc && rr || qc && qr) ∧
    (clear_conversation_history ⟨rc, qc, rr, qr⟩).redisAttempted = rc ∧
    (clear_conversation_history ⟨rc, qc, rr, qr⟩).qdrantAttempted = (!(rc && rr) && qc) := by
  cases rc <;> cases qc <;> cases rr <;> cases qr <;> decide

/-- C2 counterexample: a single context message one day old whose relevance
score is the cosine value -1 yields a negative confidence (-33/100), so the
score is not always in [0, 1] for non-empty context. -/
theorem c2_confidence_counterexample :
    calculate_context_confidence 86400
        [⟨"u", "alice", "m", "r", 0, none, -1⟩] "q" < 0 ∧
    ([⟨"u", "alice", "m", "r", 0, none, -1⟩] : List ConversationMessage) ≠ [] := by
  constructor
  · show calculate_context_confidence 86400 _ "q" < 0
    simp only [calculate_context_confidence, List.isEmpty_cons, List.map_cons,
      List.map_nil, List.sum_cons, List.sum_nil, List.filterMap, List.length_cons,
      List.length_nil]
    norm_num
  · simp

/-- C2 (amended): for every list of context messages in which every message's
relevance score is nonnegative, the computed confidence is in [0, 1] when the
list is non-empty, and exactly 0 when the list is empty.  (The unamended claim
fails because the mean relevance factor is not clamped below and cosine scores
may be negative.) -/
theorem c2_confidence_range (now : ℚ) (messages : List ConversationMessage)
    (currentMessage : String)
    (hscores : ∀ m ∈ messages, 0 ≤ m.context_score) :
    (messages = [] → calculate_context_confidence now messages currentMessage = 0) ∧
    (messages ≠ [] →
      0 ≤ calculate_context_confidence now messages currentMessage ∧
      calculate_context_confidence now messages currentMessage ≤ 1) := by
  constructor
  · intro h
    simp [calculate_context_confidence, h]
  · intro hne
    have hlistne : ¬ messages.isEmpty := by
      simpa [List.isEmpty_iff] using hne
    unfold calculate_context_confidence
    simp only [hlistne, if_false, Bool.false_eq_true]
    constructor
    · have hn : (0 : ℚ) ≤ (messages.length : ℚ) := by positivity
      have h1 : (0 : ℚ) ≤ min ((messages.length : ℚ) / 10) 1 :=
        le_min (by positivity) (by norm_num)
      have h2 : (0 : ℚ) ≤
          max 0 (1 - ((messages.map (fun m => now - (m.timestamp : ℚ))).sum /
            (messages.length : ℚ)) / (24 * 3600)) := le_max_left _ _
      have h3 : (0 : ℚ) ≤
          (messages.map (fun m => m.context_score)).sum / (messages.length : ℚ) := by
        apply div_nonneg _ hn
        apply List.sum_nonneg
        intro x hx
        obtain ⟨m, hm, rfl⟩ := List.mem_map.mp hx
        exact hscores m hm
      have h4 : (0 : ℚ) ≤
          (if ((messages.filterMap (fun m => m.intent)).filter
                (fun s => s != "")).isEmpty then (1 : ℚ) / 2
            else 1 - ((((messages.filterMap (fun m => m.intent)).filter
                (fun s => s != "")).dedup.length : ℚ) /
              (((messages.filterMap (fun m => m.intent)).filter
                (fun s => s != "")).length : ℚ))) := by
        set L := (messages.filterMap (fun m => m.intent)).filter (fun s => s != "") with hL
        by_cases hc : L.isEmpty
        · simp [hc]
        · simp only [hc, if_false, Bool.false_eq_true, sub_nonneg]
          have hlen : 0 < (L.length : ℚ) := by
            have : L ≠ [] := by simpa [List.isEmpty_iff] using hc
            have : 0 < L.length := List.length_pos.mpr this
            exact_mod_cast this
          rw [div_le_one hlen]
          have := (List.dedup_sublist L).length_le
          exact_mod_cast this
      have : (0 : ℚ) ≤
          min ((messages.length : ℚ) / 10) 1 * (2 / 10)
          + max 0 (1 - ((messages.map (fun m => now - (m.timestamp : ℚ))).sum /
              (messages.length : ℚ)) / (24 * 3600)) * (3 / 10)
          + (messages.map (fun m => m.context_score)).sum /
              (messages.length : ℚ) * (4 / 10)
          + (if ((messages.filterMap (fun m => m.intent)).filter
                (fun s => s != "")).isEmpty then (1 : ℚ) / 2
              else 1 - ((((messages.filterMap (fun m => m.intent)).filter
                  (fun s => s != "")).dedup.length : ℚ) /
                (((messages.filterMap (fun m => m.intent)).filter
                  (fun s => s != "")).length : ℚ))) * (1 / 10) := by
        have := h1
        have := h2
        have := h3
        have := h4
        positivity
      exact le_min this (by norm_num)
    · exact min_le_right _ _

/-- Witness for C2 (amended) at a one-element context with score 1/2. -/
theorem c2_confidence_range_witness :
    0 ≤ calculate_context_confidence 0
        [⟨"u", "alice", "m", "r", 0, none, 1/2⟩] "q" ∧
    calculate_context_confidence 0
        [⟨"u", "alice", "m", "r", 0, none, 1/2⟩] "q" ≤ 1 :=
  (c2_confidence_range 0 [⟨"u", "alice", "m", "r", 0, none, 1/2⟩] "q"
    (by intro m hm; simp at hm; subst hm; norm_num)).2 (by simp)

/-- C5: on a non-empty candidate list with the embedding subsystem available,
the filter returns a descending-by-score ordering of exactly the rescored
candidates whose similarity is at least 3/10, truncated to `max_results`; with
the embedding subsystem unavailable it returns the first `max_results`
candidates in the given recency order, unscored. -/
theorem c5_filter_by_relevance_spec (sim : String → String → ℚ)
    (messages : List ConversationMessage) (current_message : String)
    (max_results : Nat) (hne : messages ≠ []) :
    (∃ ranked : List ConversationMessage,
      ranked.Perm ((messages.map (rescored sim current_message)).filter
        (fun m => decide (context_relevance_threshold ≤ m.context_score))) ∧
      ranked.Pairwise (fun a b => b.context_score ≤ a.context_score) ∧
      filter_by_relevance (some sim) messages current_message max_results =
        ranked.take max_results) ∧
    filter_by_relevance none messages current_message max_results =
      messages.take max_results := by
  constructor
  · refine ⟨((messages.map (rescored sim current_message)).filter
      (fun m => decide (context_relevance_threshold ≤ m.context_score))).mergeSort
        byScoreDesc, List.mergeSort_perm _ _, ?_, ?_⟩
    · have h := @List.sorted_mergeSort ConversationMessage byScoreDesc
        (fun a b c hab hbc => by
          simp only [byScoreDesc, decide_eq_true_eq] at *
          exact le_trans hbc hab)
        (fun a b => by
          simp only [byScoreDesc, Bool.or_eq_true, decide_eq_true_eq]
          exact le_total _ _)
        ((messages.map (rescored sim current_message)).filter
          (fun m => decide (context_relevance_threshold ≤ m.context_score)))
      exact h.imp (fun hab => by
        simpa only [byScoreDesc, decide_eq_true_eq] using hab)
    · have hne' : messages.isEmpty = false := by
        simpa [List.isEmpty_iff] using hne
      simp [filter_by_relevance, hne']
  · rfl

/-- Witness for C5: the recency fallback at a concrete one-element candidate
list. -/
theorem c5_filter_by_relevance_witness :
    filter_by_relevance none [⟨"u", "a", "m", "r", 5, none, 0⟩] "q" 1 =
      ([⟨"u", "a", "m", "r", 5, none, 0⟩] : List ConversationMessage).take 1 :=
  (c5_filter_by_relevance_spec (fun _ _ => 1) [⟨"u", "a", "m", "r", 5, none, 0⟩]
    "q" 1 (by simp)).2

/-- The budget loop keeps a prefix, stays within the budget whenever it kept
anything, and only stops early when the next whole block would overflow. -/
theorem selectWithinBudget_split (max_length : Nat) (l : List ConversationMessage) :
    ∀ len : Nat,
      (∃ rest, l = selectWithinBudget max_length len l ++ rest ∧
        (rest = [] ∨ ∃ r rs, rest = r :: rs ∧
          max_length < len + ((selectWithinBudget max_length len l).map blockLen).sum
            + blockLen r)) ∧
      (selectWithinBudget max_length len l ≠ [] →
        len + ((selectWithinBudget max_length len l).map blockLen).sum ≤ max_length) := by
  induction l with
  | nil =>
    intro len
    exact ⟨⟨[], by simp [selectWithinBudget], Or.inl rfl⟩, by simp [selectWithinBudget]⟩
  | cons m rest ih =>
    intro len
    by_cases hover : max_length < len + blockLen m
    · refine ⟨⟨m :: rest, ?_, ?_⟩, ?_⟩
      · simp [selectWithinBudget, hover]
      · exact Or.inr ⟨m, rest, rfl, by simp [selectWithinBudget, hover]⟩
      · simp [selectWithinBudget, hover]
    · have hsel : selectWithinBudget max_length len (m :: rest) =
          m :: selectWithinBudget max_length (len + blockLen m) rest := by
        simp [selectWithinBudget, hover]
      obtain ⟨⟨tail, htail, hcut⟩, hbudget⟩ := ih (len + blockLen m)
      refine ⟨⟨tail, ?_, ?_⟩, ?_⟩
      · rw [hsel, List.cons_append, ← htail]
      · rcases hcut with h | ⟨r, rs, hrest, hlt⟩
        · exact Or.inl h
        · refine Or.inr ⟨r, rs, hrest, ?_⟩
          rw [hsel]
          simpa [Nat.add_assoc, Nat.add_comm, Nat.add_left_comm] using hlt
      · intro _
        rw [hsel]
        by_cases hsub : selectWithinBudget max_length (len + blockLen m) rest = []
        · simp only [hsub, List.map_cons, List.map_nil, List.sum_cons, List.sum_nil]
          omega
        · have := hbudget hsub
          simp only [List.map_cons, List.sum_cons]
          omega

/-- C4 (amended): the rendered context text lists the selected exchanges in
descending relevance-score order (the renderer re-sorts the chronologically
assembled context by score), emitting one user line and one response line per
exchange; exchanges are taken from that order as long as the running character
count stays within `max_length`, and the first exchange whose whole block
would overflow is dropped along with everything after it — no exchange is
truncated mid-block. -/
theorem c4_render_order_amended (messages : List ConversationMessage)
    (current_message : String) (max_length : Nat) (hne : messages ≠ []) :
    (messages.mergeSort byScoreDesc).Perm messages ∧
    (messages.mergeSort byScoreDesc).Pairwise
      (fun a b => b.context_score ≤ a.context_score) ∧
    messages.mergeSort byScoreDesc =
      selectWithinBudget max_length contextHeader.length
          (messages.mergeSort byScoreDesc)
        ++ (messages.mergeSort byScoreDesc).drop
          (selectWithinBudget max_length contextHeader.length
            (messages.mergeSort byScoreDesc)).length ∧
    create_optimized_context messages current_message max_length =
      renderChosen
        (selectWithinBudget max_length contextHeader.length
          (messages.mergeSort byScoreDesc)) current_message ∧
    (selectWithinBudget max_length contextHeader.length
        (messages.mergeSort byScoreDesc) ≠ [] →
      contextHeader.length +
        ((selectWithinBudget max_length contextHeader.length
          (messages.mergeSort byScoreDesc)).map blockLen).sum ≤ max_length) ∧
    (∀ r rs,
      (messages.mergeSort byScoreDesc).drop
          (selectWithinBudget max_length contextHeader.length
            (messages.mergeSort byScoreDesc)).length = r :: rs →
      max_length < contextHeader.length +
        ((selectWithinBudget max_length contextHeader.length
          (messages.mergeSort byScoreDesc)).map blockLen).sum + blockLen r) := by
  obtain ⟨⟨rest, hsplit, hcut⟩, hbudget⟩ :=
    selectWithinBudget_split max_length (messages.mergeSort byScoreDesc)
      contextHeader.length
  have hdropGen : ∀ (l a tail : List ConversationMessage),
      l = a ++ tail → l.drop a.length = tail := by
    intro l a tail h
    subst h
    exact List.drop_left _ _
  have hdrop : (messages.mergeSort byScoreDesc).drop
      (selectWithinBudget max_length contextHeader.length
        (messages.mergeSort byScoreDesc)).length = rest :=
    hdropGen _ _ _ hsplit
  refine ⟨List.mergeSort_perm _ _, ?_, ?_, ?_, hbudget, ?_⟩
  · have h := @List.sorted_mergeSort ConversationMessage byScoreDesc
      (fun a b c hab hbc => by
        simp only [byScoreDesc, decide_eq_true_eq] at *
        exact le_trans hbc hab)
      (fun a b => by
        simp only [byScoreDesc, Bool.or_eq_true, decide_eq_true_eq]
        exact le_total _ _)
      messages
    exact h.imp (fun hab => by
      simpa only [byScoreDesc, decide_eq_true_eq] using hab)
  · rw [hdrop]; exact hsplit
  · have hne' : messages.isEmpty = false := by
      simpa [List.isEmpty_iff] using hne
    simp [create_optimized_context, hne']
  · intro r rs hrest
    rw [hdrop] at hrest
    rcases hcut with h | ⟨r', rs', hrest', hlt⟩
    · rw [hrest] at h; cases h
    · rw [hrest] at hrest'
      cases hrest'
      exact hlt

/-- C4 counterexample: two exchanges where the earlier one has the lower
relevance score are rendered newest-first (descending timestamp), not in
ascending timestamp order: the code's renderer differs from the claimed
chronological renderer on this input. -/
theorem c4_render_order_counterexample :
    create_optimized_context
        [⟨"u", "a", "alpha", "r1", 0, none, 0⟩, ⟨"u", "a", "beta", "r2", 3600, none, 1⟩]
        "q" 1000 ≠
      render_chronological_claim
        [⟨"u", "a", "alpha", "r1", 0, none, 0⟩, ⟨"u", "a", "beta", "r2", 3600, none, 1⟩]
        "q" 1000 := by
  decide

/-- Witness for C4 (amended): the rendering equation at a concrete one-element
context. -/
theorem c4_render_order_witness :
    create_optimized_context [⟨"u", "a", "m", "r", 0, none, 0⟩] "q" 100 =
      renderChosen
        (selectWithinBudget 100 contextHeader.length
          (([⟨"u", "a", "m", "r", 0, none, 0⟩] :
            List ConversationMessage).mergeSort byScoreDesc)) "q" :=
  (c4_render_order_amended [⟨"u", "a", "m", "r", 0, none, 0⟩] "q" 100
    (by simp)).2.2.2.1

/-- A fresh field id makes `HSET` an append. -/
theorem hset_fresh (h : List (String × ConversationMessage)) (field : String)
    (msg : ConversationMessage) (hfresh : ∀ kv ∈ h, kv.1 ≠ field) :
    hset h field msg = h ++ [(field, msg)] := by
  have hany : h.any (fun kv => kv.1 == field) = false := by
    rw [List.any_eq_false]
    intro kv hkv
    simpa using hfresh kv hkv
  simp [hset, hany]

/-- A write below the cap with a fresh id appends and does not trim. -/
theorem store_in_redis_small_step (h : List (String × ConversationMessage))
    (e : String × ConversationMessage)
    (hfresh : ∀ kv ∈ h, kv.1 ≠ e.1)
    (hlen : h.length < max_redis_messages) :
    store_in_redis h e.1 e.2 = h ++ [e] := by
  have hs : hset h e.1 e.2 = h ++ [e] := by
    rw [hset_fresh h e.1 e.2 hfresh]
  have hnotrim : ¬ max_redis_messages < (h ++ [e]).length := by
    simp only [List.length_append, List.length_cons, List.length_nil]
    omega
  simp only [store_in_redis, hs]
  rw [if_neg hnotrim]

/-- A write at the cap with a fresh id whose timestamp is newest evicts
exactly the oldest entry. -/
theorem store_in_redis_full_step (h0 e : String × ConversationMessage)
    (ht : List (String × ConversationMessage))
    (hlen : (h0 :: ht).length = max_redis_messages)
    (hnodup : ((h0 :: (ht ++ [e])).map Prod.fst).Nodup)
    (hsorted : (h0 :: (ht ++ [e])).Pairwise
      (fun a b => a.2.timestamp < b.2.timestamp)) :
    store_in_redis (h0 :: ht) e.1 e.2 = ht ++ [e] := by
  have hmap : ((h0 :: (ht ++ [e])).map Prod.fst) =
      h0.1 :: (ht.map Prod.fst ++ [e.1]) := by simp
  rw [hmap] at hnodup
  obtain ⟨hnotin, htailnd⟩ := List.nodup_cons.mp hnodup
  have hfresh : ∀ kv ∈ h0 :: ht, kv.1 ≠ e.1 := by
    intro kv hkv heq
    rcases List.mem_cons.mp hkv with rfl | hmem
    · exact hnotin (by simp [heq])
    · have hd := List.disjoint_of_nodup_append htailnd
      exact hd (List.mem_map.mpr ⟨kv, hmem, rfl⟩) (by simp [heq])
  have hs : hset (h0 :: ht) e.1 e.2 = h0 :: (ht ++ [e]) := by
    rw [hset_fresh (h0 :: ht) e.1 e.2 hfresh]
    simp
  have hlen1 : (h0 :: (ht ++ [e])).length = max_redis_messages + 1 := by
    simp only [List.length_cons, List.length_append, List.length_nil] at hlen ⊢
    omega
  have htrim : max_redis_messages < (h0 :: (ht ++ [e])).length := by
    rw [hlen1]
    omega
  have hsortedle : (h0 :: (ht ++ [e])).Pairwise
      (fun a b => byEntryTimeAsc a b = true) :=
    hsorted.imp (fun hab => by
      simp only [byEntryTimeAsc, decide_eq_true_eq]
      exact le_of_lt hab)
  have hms : (h0 :: (ht ++ [e])).mergeSort byEntryTimeAsc = h0 :: (ht ++ [e]) :=
    List.mergeSort_of_sorted hsortedle
  have htake : (h0 :: (ht ++ [e])).take ((h0 :: (ht ++ [e])).length
      - max_redis_messages) = [h0] := by
    rw [hlen1]
    simp
  have hfilter : (h0 :: (ht ++ [e])).filter
      (fun kv => ! [h0].any (fun d => d.1 == kv.1)) = ht ++ [e] := by
    rw [List.filter_cons]
    have hh0 : (! [h0].any (fun d => d.1 == h0.1)) = false := by simp
    simp only [hh0, Bool.false_eq_true, if_false]
    rw [List.filter_eq_self]
    intro kv hkv
    have hne : h0.1 ≠ kv.1 := by
      intro heq
      apply hnotin
      rw [heq]
      rcases List.mem_append.mp hkv with hm | hm
      · exact List.mem_append.mpr (Or.inl (List.mem_map.mpr ⟨kv, hm, rfl⟩))
      · have : kv = e := by simpa using hm
        subst this
        simp
    simp [hne]
  simp only [store_in_redis, hs, htrim, if_true, hms, htake]
  exact hfilter

/-- Iterating writes with fresh ids in strictly increasing timestamp order
over a hash already below the cap leaves exactly the most recent
`max_redis_messages` entries. -/
theorem store_batch_lastN (adds : List (String × ConversationMessage)) :
    ∀ h : List (String × ConversationMessage),
      ((h ++ adds).map Prod.fst).Nodup →
      (h ++ adds).Pairwise (fun a b => a.2.timestamp < b.2.timestamp) →
      h.length ≤ max_redis_messages →
      store_batch h adds =
        (h ++ adds).drop ((h ++ adds).length - max_redis_messages) := by
  induction adds with
  | nil =>
    intro h _ _ hlen
    simp only [store_batch, List.foldl_nil, List.append_nil]
    have hz : h.length - max_redis_messages = 0 := by omega
    rw [hz, List.drop_zero]
  | cons e rest ih =>
    intro h hnodup hsorted hlen
    have hstep : store_batch h (e :: rest) =
        store_batch (store_in_redis h e.1 e.2) rest := rfl
    by_cases hfull : h.length = max_redis_messages
    · obtain ⟨h0, ht, rfl⟩ : ∃ h0 ht, h = h0 :: ht := by
        cases h with
        | nil => simp [max_redis_messages] at hfull
        | cons a t => exact ⟨a, t, rfl⟩
      rw [List.cons_append] at hnodup hsorted
      have hsub : (ht ++ [e]).Sublist (ht ++ e :: rest) :=
        List.Sublist.append_left (by simp) ht
      have hsub2 : (h0 :: (ht ++ [e])).Sublist (h0 :: (ht ++ e :: rest)) :=
        hsub.cons₂ h0
      have hnodup2 : ((h0 :: (ht ++ [e])).map Prod.fst).Nodup :=
        (hsub2.map Prod.fst).nodup hnodup
      have hsorted2 : (h0 :: (ht ++ [e])).Pairwise
          (fun a b => a.2.timestamp < b.2.timestamp) := hsorted.sublist hsub2
      have hs := store_in_redis_full_step h0 e ht hfull hnodup2 hsorted2
      rw [hstep, hs]
      have hassoc : (ht ++ [e]) ++ rest = ht ++ e :: rest := by simp
      have hnodup3 : (((ht ++ [e]) ++ rest).map Prod.fst).Nodup := by
        rw [hassoc]
        rw [List.map_cons] at hnodup
        exact (List.nodup_cons.mp hnodup).2
      have hsorted3 : ((ht ++ [e]) ++ rest).Pairwise
          (fun a b => a.2.timestamp < b.2.timestamp) := by
        rw [hassoc]
        exact (List.pairwise_cons.mp hsorted).2
      have hlen3 : (ht ++ [e]).length ≤ max_redis_messages := by
        simp only [List.length_cons] at hfull
        simp only [List.length_append, List.length_cons, List.length_nil]
        omega
      rw [ih (ht ++ [e]) hnodup3 hsorted3 hlen3]
      have hlist : (h0 :: ht) ++ e :: rest = h0 :: ((ht ++ [e]) ++ rest) := by
        simp
      rw [hlist]
      have hlen4 : (h0 :: ((ht ++ [e]) ++ rest)).length =
          ((ht ++ [e]) ++ rest).length + 1 := by simp
      rw [hlen4]
      have hge : max_redis_messages ≤ ((ht ++ [e]) ++ rest).length := by
        simp only [List.length_cons] at hfull
        simp only [List.length_append, List.length_cons, List.length_nil]
        omega
      have hsucc : ((ht ++ [e]) ++ rest).length + 1 - max_redis_messages =
          (((ht ++ [e]) ++ rest).length - max_redis_messages) + 1 := by omega
      rw [hsucc, List.drop_succ_cons]
    · have hlt : h.length < max_redis_messages := lt_of_le_of_ne hlen hfull
      have hfresh : ∀ kv ∈ h, kv.1 ≠ e.1 := by
        intro kv hkv heq
        have hnd : (h.map Prod.fst ++ (e.1 :: rest.map Prod.fst)).Nodup := by
          simpa using hnodup
        have hd := List.disjoint_of_nodup_append hnd
        exact hd (List.mem_map.mpr ⟨kv, hkv, rfl⟩) (by simp [heq])
      have hs := store_in_redis_small_step h e hfresh hlt
      rw [hstep, hs]
      have hassoc : (h ++ [e]) ++ rest = h ++ e :: rest := by simp
      have hnodup3 : (((h ++ [e]) ++ rest).map Prod.fst).Nodup := by
        rw [hassoc]
        exact hnodup
      have hsorted3 : ((h ++ [e]) ++ rest).Pairwise
          (fun a b => a.2.timestamp < b.2.timestamp) := by
        rw [hassoc]
        exact hsorted
      have hlen3 : (h ++ [e]).length ≤ max_redis_messages := by
        simp only [List.length_append, List.length_cons, List.length_nil]
        omega
      rw [ih (h ++ [e]) hnodup3 hsorted3 hlen3]
      rw [hassoc]

/-- C6: starting from an empty per-user hash, after adding `cap + 10`
exchanges with fresh ids in strictly increasing timestamp order (cap being
`max_redis_messages = 50`), the recency tier holds exactly `cap` entries and
they are the `cap` most recent ones by timestamp; each overflowing write
evicted the oldest entries as determined by sorting all fetched entries by
timestamp. -/
theorem c6_trim_invariant (adds : List (String × ConversationMessage))
    (hlen : adds.length = max_redis_messages + 10)
    (hids : (adds.map Prod.fst).Nodup)
    (htimes : adds.Pairwise (fun a b => a.2.timestamp < b.2.timestamp)) :
    store_batch [] adds = adds.drop 10 ∧
    (store_batch [] adds).length = max_redis_messages := by
  have h := store_batch_lastN adds [] (by simpa using hids)
    (by simpa using htimes) (by simp)
  rw [List.nil_append] at h
  have hdropn : adds.length - max_redis_messages = 10 := by
    rw [hlen]
    omega
  rw [hdropn] at h
  refine ⟨h, ?_⟩
  rw [h, List.length_drop, hlen]
  omega

/-- Witness for C6: the batch of sixty concrete adds leaves exactly fifty
entries. -/
theorem c6_trim_invariant_witness :
    (store_batch [] trimWitnessAdds).length = max_redis_messages :=
  (c6_trim_invariant trimWitnessAdds (by decide) (by decide) (by decide)).2

/-- Each message returned by the relevance filter is one of the candidates,
up to its recomputed score. -/
theorem filter_by_relevance_user_source (emb : Option (String → String → ℚ))
    (messages : List ConversationMessage) (current_message : String)
    (max_messages : Nat) (m : ConversationMessage)
    (hm : m ∈ filter_by_relevance emb messages current_message max_messages) :
    ∃ m0 ∈ messages, m.user_id = m0.user_id := by
  match emb with
  | none =>
    exact ⟨m, List.mem_of_mem_take hm, rfl⟩
  | some sim =>
    by_cases hne : messages.isEmpty
    · simp only [filter_by_relevance, hne, if_true] at hm
      exact ⟨m, List.mem_of_mem_take hm, rfl⟩
    · simp only [filter_by_relevance, hne, Bool.false_eq_true, if_false] at hm
      have h1 := List.mem_of_mem_take hm
      have h2 := List.mem_mergeSort.mp h1
      have h3 := List.mem_filter.mp h2
      obtain ⟨m0, hm0, rfl⟩ := List.mem_map.mp h3.1
      exact ⟨m0, hm0, rfl⟩

/-- Each message collected from the ranked Qdrant results comes from the
accumulator or from one of the results. -/
theorem collectSemantic_mem (score : QdrantPoint → ℚ) (excl : List Nat)
    (limit : Nat) (pts : List QdrantPoint) :
    ∀ (acc : List ConversationMessage) (m : ConversationMessage),
      m ∈ collectSemantic score excl limit acc pts →
      m ∈ acc ∨ ∃ p ∈ pts, m = { p.msg with context_score := score p } := by
  induction pts with
  | nil =>
    intro acc m hm
    simp only [collectSemantic, List.mem_reverse] at hm
    exact Or.inl hm
  | cons p rest ih =>
    intro acc m hm
    simp only [collectSemantic] at hm
    by_cases hexcl : p.msg.timestamp ∈ excl
    · simp only [hexcl, if_true] at hm
      by_cases hbreak : limit ≤ acc.length
      · rw [if_pos hbreak, List.mem_reverse] at hm
        exact Or.inl hm
      · rw [if_neg hbreak] at hm
        rcases ih acc m hm with h | ⟨q, hq, hqe⟩
        · exact Or.inl h
        · exact Or.inr ⟨q, List.mem_cons_of_mem p hq, hqe⟩
    · simp only [hexcl, if_false] at hm
      set acc2 := { p.msg with context_score := score p } :: acc with hacc2
      by_cases hbreak : limit ≤ acc2.length
      · rw [if_pos hbreak, List.mem_reverse] at hm
        rcases List.mem_cons.mp hm with rfl | h
        · exact Or.inr ⟨p, List.mem_cons_self p rest, rfl⟩
        · exact Or.inl h
      · rw [if_neg hbreak] at hm
        rcases ih acc2 m hm with h | ⟨q, hq, hqe⟩
        · rcases List.mem_cons.mp h with rfl | h2
          · exact Or.inr ⟨p, List.mem_cons_self p rest, rfl⟩
          · exact Or.inl h2
        · exact Or.inr ⟨q, List.mem_cons_of_mem p hq, hqe⟩

/-- Every point returned by the mandatory-filter search belongs to the
requesting user. -/
theorem qdrant_search_user (points : List QdrantPoint) (score : QdrantPoint → ℚ)
    (user_id : String) (limit : Nat) (threshold : ℚ) (p : QdrantPoint)
    (hp : p ∈ qdrant_search points score user_id limit threshold) :
    p ∈ points ∧ p.msg.user_id = user_id := by
  have h1 := List.mem_of_mem_take hp
  have h2 := List.mem_mergeSort.mp h1
  have h3 := List.mem_filter.mp h2
  refine ⟨h3.1, ?_⟩
  have := h3.2
  simp only [Bool.and_eq_true, beq_iff_eq] at this
  exact this.1

/-- Every message returned by the semantic tier belongs to the requesting
user, whatever the scoring function does. -/
theorem get_semantic_context_user (st : StoreState) (emb : Option EmbeddingModel)
    (user_id current_message : String) (limit : Nat) (excl : List Nat)
    (x : ConversationMessage)
    (hx : x ∈ get_semantic_context st emb user_id current_message limit excl) :
    x.user_id = user_id := by
  cases emb with
  | none =>
    simp only [get_semantic_context] at hx
    cases hx
  | some e =>
    simp only [get_semantic_context] at hx
    by_cases hc : st.qdrantConfigured
    · rw [if_pos hc] at hx
      rcases collectSemantic_mem _ _ _ _ _ _ hx with h | ⟨p, hp, rfl⟩
      · cases h
      · exact (qdrant_search_user _ _ _ _ _ _ hp).2
    · rw [if_neg hc] at hx
      cases hx

/-- C3: cross-user isolation.  If every entry stored under user B's recency
key belongs to B (the invariant every write path maintains), then for any
distinct user A, no message returned by a context retrieval for B carries A's
user id — regardless of the similarity functions — and the per-user recency
keys of A and B are distinct, so the recency read never touches A's data. -/
theorem c3_cross_user_isolation (st : StoreState) (emb : Option EmbeddingModel)
    (userA userB current_message : String) (include_semantic : Bool)
    (hAB : userA ≠ userB)
    (hredis : ∀ kv ∈ st.redis (redis_key userB), kv.2.user_id = userB) :
    (∀ m ∈ get_conversation_context st emb userB current_message include_semantic,
      m.user_id ≠ userA) ∧
    redis_key userA ≠ redis_key userB := by
  constructor
  · intro m hm
    have hB : m.user_id = userB := by
      have hctx := List.mem_mergeSort.mp hm
      have hrecentB : ∀ x ∈ get_recent_from_redis st userB 20,
          x.user_id = userB := by
        intro x hx
        unfold get_recent_from_redis at hx
        by_cases hc : st.redisConfigured
        · rw [if_pos hc] at hx
          have h1 := List.mem_of_mem_take hx
          have h2 := List.mem_mergeSort.mp h1
          obtain ⟨kv, hkv, rfl⟩ := List.mem_map.mp h2
          exact hredis kv hkv
        · rw [if_neg hc] at hx
          cases hx
      have hfromRecentB : ∀ x ∈ (if !(get_recent_from_redis st userB 20).isEmpty
            && emb.isSome then
          filter_by_relevance (emb.map (fun e => e.msgSim))
            (get_recent_from_redis st userB 20) current_message
            (max_context_messages / 2)
        else (get_recent_from_redis st userB 20).take (max_context_messages / 2)),
          x.user_id = userB := by
        intro x hx
        by_cases hc : (!(get_recent_from_redis st userB 20).isEmpty
            && emb.isSome) = true
        · rw [if_pos hc] at hx
          obtain ⟨m0, hm0, he⟩ := filter_by_relevance_user_source _ _ _ _ _ hx
          rw [he]
          exact hrecentB m0 hm0
        · rw [if_neg hc] at hx
          exact hrecentB x (List.mem_of_mem_take hx)
      by_cases hc : (include_semantic &&
          (if !(get_recent_from_redis st userB 20).isEmpty && emb.isSome then
            filter_by_relevance (emb.map (fun e => e.msgSim))
              (get_recent_from_redis st userB 20) current_message
              (max_context_messages / 2)
          else (get_recent_from_redis st userB 20).take
            (max_context_messages / 2)).length < max_context_messages) = true
      · rw [if_pos hc] at hctx
        rcases List.mem_append.mp hctx with h | h
        · exact hfromRecentB m h
        · exact get_semantic_context_user st emb userB current_message _ _ m h
      · rw [if_neg hc] at hctx
        exact hfromRecentB m hctx
    intro hA
    exact hAB (hA ▸ hB)
  · intro h
    apply hAB
    unfold redis_key at h
    have hdata := congrArg String.data h
    rw [String.data_append, String.data_append] at hdata
    have := List.append_cancel_left hdata
    exact String.ext this

/-- Witness for C3 at a concrete state holding one exchange of user b under
b's key. -/
theorem c3_cross_user_isolation_witness :
    redis_key "a" ≠ redis_key "b" :=
  (c3_cross_user_isolation
    ⟨true, true, fun k => if k == redis_key "b"
        then [("f1", ⟨"b", "bob", "m", "r", 0, none, 0⟩)] else [], []⟩
    none "a" "b" "hello" true
    (by simp)
    (by
      intro kv hkv
      simp only [beq_self_eq_true, if_true, List.mem_singleton] at hkv
      subst hkv
      rfl)).2

/-- After an upsert the collection holds a point with the upserted id. -/
theorem qdrant_upsert_mem (points : List QdrantPoint) (point_id : String)
    (msg : ConversationMessage) :
    (qdrant_upsert points point_id msg).any (fun p => p.id == point_id) = true := by
  unfold qdrant_upsert
  by_cases hc : points.any (fun p => p.id == point_id) = true
  · rw [if_pos hc]
    rw [List.any_eq_true] at hc ⊢
    obtain ⟨p, hp, hpe⟩ := hc
    refine ⟨⟨point_id, msg⟩, List.mem_map.mpr ⟨p, hp, ?_⟩, by simp⟩
    simp only [hpe, if_true]
  · rw [if_neg hc]
    simp

/-- C9: with both tiers configured, room in the hash and a fresh generated
id, an add call with no external id returns the id computed from the user id
and timestamp, and that one id is the storage key in both tiers: the per-user
Redis hash gains a field with it and Qdrant gains a point with it.  The id
does not depend on the state or the texts, so two add calls with equal user
id and timestamp produce equal ids. -/
theorem c9_same_id_both_tiers (st : StoreState) (now : Nat)
    (user_id username user_message bot_response : String) (intent : Option String)
    (hr : st.redisConfigured = true) (hq : st.qdrantConfigured = true)
    (hroom : (st.redis (redis_key user_id)).length < max_redis_messages)
    (hfresh : ∀ kv ∈ st.redis (redis_key user_id),
      kv.1 ≠ get_message_id user_id now) :
    (add_conversation st true now user_id username user_message bot_response
        intent none).2 = get_message_id user_id now ∧
    ((add_conversation st true now user_id username user_message bot_response
        intent none).1.redis (redis_key user_id)).any
      (fun kv => kv.1 == get_message_id user_id now) = true ∧
    ((add_conversation st true now user_id username user_message bot_response
        intent none).1.qdrant).any
      (fun p => p.id == get_message_id user_id now) = true ∧
    (∀ (st2 : StoreState) (un2 um2 br2 : String) (intent2 : Option String),
      (add_conversation st2 true now user_id un2 um2 br2 intent2 none).2 =
        (add_conversation st true now user_id username user_message bot_response
          intent none).2) := by
  have hstore := store_in_redis_small_step (st.redis (redis_key user_id))
    (get_message_id user_id now,
      ⟨user_id, username, user_message, bot_response, now, intent, 0⟩)
    hfresh hroom
  refine ⟨rfl, ?_, ?_, fun st2 un2 um2 br2 intent2 => rfl⟩
  · simp only [add_conversation, hr, if_true, hq, Bool.and_self, beq_self_eq_true]
    rw [hstore]
    simp
  · simp only [add_conversation, hr, if_true, hq, Bool.and_self]
    exact qdrant_upsert_mem _ _ _

/-- Witness for C9: the returned id at a concrete empty state. -/
theorem c9_same_id_both_tiers_witness :
    (add_conversation ⟨true, true, fun _ => [], []⟩ true 42 "u7" "alice" "hi"
        "hello" none none).2 = get_message_id "u7" 42 :=
  (c9_same_id_both_tiers ⟨true, true, fun _ => [], []⟩ 42 "u7" "alice" "hi"
    "hello" none rfl rfl (by simp [max_redis_messages]) (by simp)).1

/-- C8: with the client and embedding model available, a patch targeting an
existing id succeeds, stores under the same id a point whose response and
combined text are updated and whose vector is recomputed from the corrected
combined text, and leaves every point with a different id in place; a patch
targeting an unknown id surfaces `false` to the caller and leaves the state
unchanged. -/
theorem c8_patch_response (st : QcmState) (message_id new_response : String)
    (enc : String → List ℚ)
    (hclient : st.clientConfigured = true)
    (hemb : st.embedding_model = some enc) :
    (∀ p, st.points.find? (fun q => q.id == message_id) = some p →
      (update_conversation_response st message_id new_response).2 = true ∧
      (⟨message_id, enc (combined_of p.user_message new_response),
          p.user_message, new_response,
          combined_of p.user_message new_response⟩ : QdrantPointV2) ∈
        (update_conversation_response st message_id new_response).1.points ∧
      (∀ q ∈ st.points, q.id ≠ message_id →
        q ∈ (update_conversation_response st message_id new_response).1.points)) ∧
    (st.points.find? (fun q => q.id == message_id) = none →
      update_conversation_response st message_id new_response = (st, false)) := by
  constructor
  · intro p hfind
    have hpid : (p.id == message_id) = true := by
      have h := @List.find?_some QdrantPointV2 (fun q => q.id == message_id) p st.points hfind
      exact h
    have hpmem : p ∈ st.points := List.mem_of_find?_eq_some hfind
    simp only [update_conversation_response, hclient, if_true, hfind, hemb]
    refine ⟨by trivial, ?_, ?_⟩
    · exact List.mem_map.mpr ⟨p, hpmem, by simp only [hpid, if_true]⟩
    · intro q hq hqid
      have hqid2 : (q.id == message_id) = false := beq_eq_false_iff_ne.mpr hqid
      exact List.mem_map.mpr ⟨q, hq, by simp only [hqid2, Bool.false_eq_true, if_false]⟩
  · intro hfind
    simp only [update_conversation_response, hclient, if_true, hfind]

/-- Witness for C8: a patch against an id absent from a concrete one-point
state returns false and leaves the state unchanged. -/
theorem c8_patch_response_witness :
    update_conversation_response
        ⟨true, some (fun _ => [1]), [⟨"id1", [0], "hi", "old", "c"⟩]⟩
        "missing" "new" =
      (⟨true, some (fun _ => [1]), [⟨"id1", [0], "hi", "old", "c"⟩]⟩, false) :=
  (c8_patch_response
    ⟨true, some (fun _ => [1]), [⟨"id1", [0], "hi", "old", "c"⟩]⟩
    "missing" "new" (fun _ => [1]) rfl rfl).2 (by rfl)
